import Mathlib

set_option maxRecDepth 10000

/-!
Verification of the campaign-agent RAG core against its specification.

The Python source is shallowly embedded in Lean:
* Python strings are modelled as `List Char` (a Python `str` is a sequence of
  code points) for the chunking code, and as Lean `String` where only equality
  and field access matter.
* Python floats appear only as opaque payload values here (no arithmetic on
  them is ever performed by the modelled code), so numeric vector entries are
  modelled as rationals `ℚ`, keeping every definition executable and decidable.
* Fallible remote calls are modelled as `Except`-valued inputs; Python
  `try/except` blocks become `match` on those values.
* Stateful effects that the claims mention (embedder invocation, similarity
  searches, warning prints) are made observable through explicit event lists
  returned next to the result.
-/


/-- The null character `'\x00'` removed by `.replace('\x00', '')` in the code. -/
def nullChar : Char := '\x00'

/-- Models membership in Python's `str.strip()` whitespace set (restricted to
the ASCII whitespace characters, which are the only ones the claims involve). -/
def isPyWs (c : Char) : Bool :=
  c == ' ' || c == '\t' || c == '\n' || c == '\r' || c == '\x0b' || c == '\x0c'

/-- Models Python `s.strip()`: drop leading and trailing whitespace. -/
def pyStrip (l : List Char) : List Char :=
  ((l.dropWhile isPyWs).reverse.dropWhile isPyWs).reverse

/-- Models Python `s.replace('\x00', '')`: for a single-character pattern and
empty replacement this is exactly a filter. -/
def removeNull (l : List Char) : List Char :=
  l.filter (fun c => c != nullChar)

/-- The paragraph separator `"\n\n"` used by `full_text.split('\n\n')` and by
`current_chunk += para + "\n\n"` in `main.py`. -/
def sepNN : List Char := ['\n', '\n']

/-- Helper for `splitNN`: prepend a character onto the first piece. -/
def consHead (a : Char) : List (List Char) → List (List Char)
  | [] => [[a]]
  | h :: hs => (a :: h) :: hs

/-- Models Python `s.split('\n\n')`: greedy leftmost split on each occurrence
of the two-character separator, keeping empty pieces (as Python does). -/
def splitNN : List Char → List (List Char)
  | [] => [[]]
  | [c] => [[c]]
  | a :: b :: t =>
    if a = '\n' ∧ b = '\n' then [] :: splitNN t
    else consHead a (splitNN (b :: t))

/-- Models the flush site in `main.py`:
`if current_chunk.strip(): clean = current_chunk.strip().replace('\x00',''); if clean: chunks.append(clean)`.
Note the order: whitespace is stripped first, then null bytes are removed. -/
def flushBuf (buf : List Char) : List (List Char) :=
  if pyStrip buf ≠ [] then
    let clean := removeNull (pyStrip buf)
    if clean ≠ [] then [clean] else []
  else []

/-- Models the `for para in paragraphs` loop of `main.py` lines 166-183, with
the running buffer `current_chunk` passed explicitly: strip each paragraph,
skip empties, append while `len(current_chunk) + len(para) < 500`, otherwise
flush the buffer and restart it with the triggering paragraph; flush the
remaining buffer at the end. -/
def chunkLoop : List (List Char) → List Char → List (List Char)
  | [], buf => flushBuf buf
  | p :: ps, buf =>
    let q := pyStrip p
    if q = [] then chunkLoop ps buf
    else if buf.length + q.length < 500 then chunkLoop ps (buf ++ q ++ sepNN)
    else flushBuf buf ++ chunkLoop ps (q ++ sepNN)

/-- The chunking step of the Process Documents handler (`main.py` 161-183):
split the text on `"\n\n"` and run the accumulation loop with an empty buffer. -/
def chunkText (l : List Char) : List (List Char) :=
  chunkLoop (splitNN l) []

/-- Paragraph-separated concatenation: joins chunks with a blank line, the
inverse direction of the `"\n\n"` split (used to state re-chunking claims). -/
def glue : List (List Char) → List Char
  | [] => []
  | [c] => c
  | c :: cs => c ++ sepNN ++ glue cs

/-- A row returned by the similarity RPC (`match_knowledge_docs`); the
modelled code only reads its `content` field. -/
structure SearchRow where
  content : String
  orgId : Option String
deriving DecidableEq

/-- Observable effects of `retrieve_brand_context`: the query-embedding call
and each `semantic_search` invocation with its `org_id` and `limit` argument. -/
inductive REvent where
  | embed (query : String)
  | search (orgId : Option String) (lim : Nat)
deriving DecidableEq

/-- Python truthiness of the `brand_id` argument (`if brand_id:` in the code):
`None` and the empty string are falsy. -/
def truthyId : Option String → Bool
  | none => false
  | some s => s != ""

/-- The hardcoded fallback list of `BrandRAG._get_default_examples`
(src/brand_rag.py lines 161-188), verbatim. -/
def default_examples : List String :=
  ["Are you still manually pulling data from 5 different tools?\n\nWe talked to 200+ startup founders. 73% said they lose 6+ hours per week just gathering basic metrics.\n\nHere's what changed:\n→ One dashboard. All your data.\n→ Zero SQL required.\n→ Insights in minutes, not days.\n\nTry it free for 14 days.",
   "Question for founders: When was the last time you made a product decision based on data vs. a hunch?\n\nTeams that track retention weekly grow 2.3x faster.\n\nYou don't need a data team. You need the right tool.",
   "Real talk: Most analytics tools were built for enterprises with data teams.\n\nYou're a startup. You need something that works today.\n\n✅ Connect in 5 minutes\n✅ Pre-built dashboards\n✅ Plain English insights"]

/-- Numeric vector entries: the modelled code never computes with them, so
floats are modelled as rationals to keep everything decidable. -/
abbrev Vec : Type := List ℚ

/-- The similarity threshold `0.5` passed by `retrieve_brand_context` to both
`semantic_search` calls. -/
def thresholdHalf : ℚ := 1/2

/-- Models `BrandRAG.retrieve_brand_context` (src/brand_rag.py 107-159).
`available` models `self.db and self.db.is_connected()`; `embQ` models the
value produced by `self.create_embedding(query)`; `oracle` models
`self.db.semantic_search` applied to `(query_embedding, org_id, limit,
threshold)`.  Returns the result list together with the trace of embedder and
search invocations. -/
def retrieve_brand_context (available : Bool) (embQ : Vec)
    (oracle : Vec → Option String → Nat → ℚ → List SearchRow)
    (brandId : Option String) (query : String) (topK : Nat)
    (includePlatform : Bool) : List String × List REvent :=
  if available = false then (default_examples, [])
  else
    let brandRes := if truthyId brandId then oracle embQ brandId topK thresholdHalf else []
    let brandEv : List REvent :=
      if truthyId brandId then [REvent.search brandId topK] else []
    let platformOn : Bool := includePlatform && decide (brandRes.length < topK)
    let results :=
      if platformOn then brandRes ++ oracle embQ none (topK - brandRes.length) thresholdHalf
      else brandRes
    let platformEv : List REvent :=
      if platformOn then [REvent.search none (topK - brandRes.length)] else []
    let trace := REvent.embed query :: (brandEv ++ platformEv)
    ((if results.isEmpty then default_examples
      else (results.take topK).map (·.content)), trace)

/-- Models `BrandRAG.create_embedding`.  `embedder` is `self.embedder`
(`none` when initialization failed); a loaded embedder may itself fail, which
Python surfaces as an exception, modelled by `Except`.  `rand` models
`np.random.rand(n).tolist()` (numpy guarantees it yields `n` values).  The
second component records the warnings the code prints on each path. -/
def create_embedding (embedder : Option (String → Except String Vec))
    (rand : Nat → Vec) (text : String) : Vec × List String :=
  match embedder with
  | none => (rand 384, ["Using random embedding fallback"])
  | some f =>
    match f text with
    | .ok v => (v, [])
    | .error e => (rand 384, ["Embedding creation failed: " ++ e])

/-- Values stored in the open metadata bag (the callers in this repository
store strings and integers). -/
inductive MetaVal where
  | str (s : String)
  | nat (n : Nat)
deriving DecidableEq

/-- A Python dict with string keys, modelled as an insertion-ordered
association list with unique keys. -/
abbrev Dict : Type := List (String × MetaVal)

/-- Models Python `d[k] = v` on a dict: replace the value at an existing key
in place, otherwise append the new binding at the end. -/
def setKey : Dict → String → MetaVal → Dict
  | [], k, v => [(k, v)]
  | (k', v') :: rest, k, v =>
    if k' = k then (k, v) :: rest else (k', v') :: setKey rest k v

/-- First-match key lookup on the modelled dict. -/
def lookupKey : Dict → String → Option MetaVal
  | [], _ => none
  | (k', v') :: rest, k => if k' = k then some v' else lookupKey rest k

/-- Models `full_metadata` in `SupabaseManager.store_knowledge_chunk`
(lines 60-64): `full_metadata = metadata or {}` followed by
`full_metadata['source'] = source` and `full_metadata['chunk_index'] = chunk_index`. -/
def fullMetadata (metadata : Option Dict) (source : String) (chunkIndex : Nat) : Dict :=
  setKey (setKey (metadata.getD []) "source" (.str source)) "chunk_index" (.nat chunkIndex)

/-- The row payload handed to `self.client.table("knowledge_docs").insert(data)`
(src/supabase_client.py 66-72). -/
structure InsertPayload where
  content : String
  embedding : Vec
  orgId : Option String
  docType : String
  metadata : Dict
deriving DecidableEq

/-- Models construction of the `data` dict in `store_knowledge_chunk`. -/
def insertPayload (content : String) (embedding : Vec) (orgId : Option String)
    (source : String) (chunkIndex : Nat) (metadata : Option Dict) : InsertPayload :=
  { content := content
    embedding := embedding
    orgId := orgId
    docType := "knowledge_chunk"
    metadata := fullMetadata metadata source chunkIndex }

/-- A row of `result.data` returned by the remote insert; the code reads
`result.data[0]["id"]`. -/
structure InsertRow where
  id : String
deriving DecidableEq

/-- Result dict of `store_knowledge_chunk`: `{"success": True, "id": ...}` or
`{"success": False, "error": ...}`. -/
inductive StoreResult where
  | success (id : String)
  | failure (error : String)
deriving DecidableEq

/-- Models `SupabaseManager.store_knowledge_chunk` (src/supabase_client.py
47-82).  `connected` models `self.is_connected()`; `remote` models the remote
insert call on the built payload, with a raised exception as `.error` and
`result.data` as the row list.  Total: every Python exception inside the
`try` is caught and mapped to a failure dict. -/
def store_knowledge_chunk (connected : Bool)
    (remote : InsertPayload → Except String (List InsertRow))
    (content : String) (embedding : Vec) (orgId : Option String)
    (source : String) (chunkIndex : Nat) (metadata : Option Dict) : StoreResult :=
  if connected = false then .failure "Not connected to Supabase"
  else
    match remote (insertPayload content embedding orgId source chunkIndex metadata) with
    | .error e => .failure e
    | .ok [] => .failure "No data returned"
    | .ok (r :: _) => .success r.id

/-- Arguments of the `match_knowledge_docs` RPC issued by `semantic_search`. -/
structure RpcArgs where
  queryEmbedding : Vec
  matchOrgId : Option String
  matchThreshold : ℚ
  matchCount : Nat
deriving DecidableEq

/-- Models `SupabaseManager.semantic_search` (src/supabase_client.py 84-114).
`rpc` models the remote call: `.error` for a raised exception, `.ok none` for
a falsy `result.data`, `.ok (some rows)` for returned rows.  Total: the
`except` clause maps every exception to `[]`. -/
def semantic_search (connected : Bool)
    (rpc : RpcArgs → Except String (Option (List SearchRow)))
    (queryEmbedding : Vec) (orgId : Option String) (lim : Nat)
    (threshold : ℚ) : List SearchRow :=
  if connected = false then []
  else
    match rpc ⟨queryEmbedding, orgId, threshold, lim⟩ with
    | .error _ => []
    | .ok none => []
    | .ok (some rows) => rows

/-- Models `SupabaseManager.count_knowledge_chunks` (src/supabase_client.py
116-134).  `queryResult` models the count query: `.error` for a raised
exception, `.ok none` for a response without a `count` attribute, and
`.ok (some c)` for a response carrying a count. -/
def count_knowledge_chunks (connected : Bool)
    (queryResult : Except String (Option Int)) : Int :=
  if connected = false then 0
  else
    match queryResult with
    | .error _ => 0
    | .ok none => 0
    | .ok (some c) => c

/-- A clean paragraph: what survives `para = para.strip()` / `if not para`
inside the chunk loop when the input holds no separator and no null byte — it
is nonempty, strip-invariant, separator-free and null-free. -/
def CleanPara (p : List Char) : Prop :=
  p ≠ [] ∧ pyStrip p = p ∧ ¬ (sepNN <:+: p) ∧ nullChar ∉ p

/-- All paragraphs in a list are clean. -/
def AllClean (g : List (List Char)) : Prop := ∀ p ∈ g, CleanPara p

/-- The buffer built by accumulating the clean paragraphs of `g` in order:
each contributes `para + "\n\n"` (the `current_chunk += para + "\n\n"` line). -/
def bufOf (g : List (List Char)) : List Char :=
  (g.map (fun p => p ++ sepNN)).flatten

/-- The paragraphs that actually enter the accumulation: stripped, with the
empties dropped (`para = para.strip()` / `if not para: continue`). -/
def cleanParas (ps : List (List Char)) : List (List Char) :=
  (ps.map pyStrip).filter (fun p => !p.isEmpty)

/-- The chunking accumulation loop as §4.4 of the specification words it:
over the (stripped, non-empty) paragraphs, flush exactly when appending the
next paragraph would make the pre-append buffer length reach or exceed 500
(`500 ≤ len(buffer) + len(para)`), otherwise append; at the end flush any
non-empty remaining buffer.  Flushed chunks are normalised as the spec's
cleaning sentence prescribes (strip, remove nulls, drop if empty). -/
def chunkSpecLoop : List (List Char) → List Char → List (List Char)
  | [], buf => if buf = [] then [] else flushBuf buf
  | p :: ps, buf =>
    if 500 ≤ buf.length + p.length then
      flushBuf buf ++ chunkSpecLoop ps (p ++ sepNN)
    else chunkSpecLoop ps (buf ++ p ++ sepNN)

/-- The chunking step as the specification describes it: split on blank-line
(`"\n\n"`) paragraph boundaries, strip the paragraphs and drop the empty
ones, then greedily accumulate with the reach-or-exceed flush test applied to
the pre-append length. -/
def chunkSpec (l : List Char) : List (List Char) :=
  chunkSpecLoop (cleanParas (splitNN l)) []

/-! ## Lemmas and claim theorems -/

/-- Setting a key makes lookup at that key return the new value. -/
theorem lookupKey_setKey_self (d : Dict) (k : String) (v : MetaVal) :
    lookupKey (setKey d k v) k = some v := by
  induction d with
  | nil => simp [setKey, lookupKey]
  | cons hd tl ih =>
    obtain ⟨k', v'⟩ := hd
    by_cases h : k' = k
    · simp [setKey, h, lookupKey]
    · simp [setKey, h, lookupKey, ih]

/-- Setting a key leaves lookup at every other key unchanged. -/
theorem lookupKey_setKey_other (d : Dict) (k k' : String) (v : MetaVal)
    (hne : k' ≠ k) : lookupKey (setKey d k v) k' = lookupKey d k' := by
  have hkk : ¬ k = k' := fun h => hne h.symm
  induction d with
  | nil => simp [setKey, lookupKey, hkk]
  | cons hd tl ih =>
    obtain ⟨k₀, v₀⟩ := hd
    by_cases h : k₀ = k
    · subst h
      simp [setKey, lookupKey, hkk]
    · simp only [setKey, if_neg h]
      by_cases h' : k₀ = k'
      · simp [lookupKey, h']
      · simp [lookupKey, h', ih]

/-- C7: `store_knowledge_chunk` returns the `StoreUnavailable`-style failure
when there is no live connection, the `InsertRejected`-style failure when the
remote insert returns no row, a success carrying the new row's id otherwise,
and (being a total function, with the remote exception path mapped to a
failure value) never raises to the caller. -/
theorem c7_store_chunk_result
    (remote : InsertPayload → Except String (List InsertRow))
    (content : String) (embedding : Vec) (orgId : Option String)
    (source : String) (chunkIndex : Nat) (metadata : Option Dict) :
    (store_knowledge_chunk false remote content embedding orgId source chunkIndex metadata
        = .failure "Not connected to Supabase") ∧
    (remote (insertPayload content embedding orgId source chunkIndex metadata) = .ok [] →
      store_knowledge_chunk true remote content embedding orgId source chunkIndex metadata
        = .failure "No data returned") ∧
    (∀ r rs, remote (insertPayload content embedding orgId source chunkIndex metadata)
        = .ok (r :: rs) →
      store_knowledge_chunk true remote content embedding orgId source chunkIndex metadata
        = .success r.id) ∧
    (∀ e, remote (insertPayload content embedding orgId source chunkIndex metadata)
        = .error e →
      store_knowledge_chunk true remote content embedding orgId source chunkIndex metadata
        = .failure e) := by
  refine ⟨rfl, ?_, ?_, ?_⟩
  · intro h
    simp [store_knowledge_chunk, h]
  · intro r rs h
    simp [store_knowledge_chunk, h]
  · intro e h
    simp [store_knowledge_chunk, h]

/-- Witness for C7 at concrete inputs: a connected store whose remote insert
returns one row succeeds with that row's id. -/
theorem c7_store_chunk_result_witness :
    store_knowledge_chunk true (fun _ => .ok [⟨"row-1"⟩]) "c" [] none "src" 0 none
      = .success "row-1" :=
  (c7_store_chunk_result (fun _ => .ok [⟨"row-1"⟩]) "c" [] none "src" 0 none).2.2.1
    ⟨"row-1"⟩ [] rfl

/-- C8: `semantic_search` returns the empty list and never raises when the
store is disconnected or the remote RPC fails (exception or falsy data), and
`count_knowledge_chunks` returns 0 on every failure: disconnected, remote
exception, or a response without a count. -/
theorem c8_search_count_failures
    (rpc : RpcArgs → Except String (Option (List SearchRow)))
    (queryEmbedding : Vec) (orgId : Option String) (lim : Nat) (threshold : ℚ)
    (queryResult : Except String (Option Int)) :
    (semantic_search false rpc queryEmbedding orgId lim threshold = []) ∧
    (∀ e, rpc ⟨queryEmbedding, orgId, threshold, lim⟩ = .error e →
      semantic_search true rpc queryEmbedding orgId lim threshold = []) ∧
    (rpc ⟨queryEmbedding, orgId, threshold, lim⟩ = .ok none →
      semantic_search true rpc queryEmbedding orgId lim threshold = []) ∧
    (count_knowledge_chunks false queryResult = 0) ∧
    (∀ e, queryResult = .error e → count_knowledge_chunks true queryResult = 0) ∧
    (queryResult = .ok none → count_knowledge_chunks true queryResult = 0) := by
  refine ⟨rfl, ?_, ?_, rfl, ?_, ?_⟩
  · intro e h
    simp [semantic_search, h]
  · intro h
    simp [semantic_search, h]
  · intro e h
    simp [count_knowledge_chunks, h]
  · intro h
    simp [count_knowledge_chunks, h]

/-- Witness for C8 at concrete inputs: a failing RPC yields `[]` and a failing
count query yields `0`. -/
theorem c8_search_count_failures_witness :
    semantic_search true (fun _ => .error "boom") [] none 5 (7/10) = [] ∧
    count_knowledge_chunks true (.error "boom") = 0 :=
  ⟨(c8_search_count_failures (fun _ => .error "boom") [] none 5 (7/10)
      (.error "boom")).2.1 "boom" rfl,
   (c8_search_count_failures (fun _ => .error "boom") [] none 5 (7/10)
      (.error "boom")).2.2.2.2.1 "boom" rfl⟩

/-- C10: the metadata persisted by `store_knowledge_chunk` is the caller's
dict with `source` and `chunk_index` set from the arguments, overriding any
caller-supplied values at those two keys; every other key keeps the caller's
value; a `None` or empty caller dict yields exactly the two-entry dict. -/
theorem c10_metadata_override (m : Dict) (source : String) (chunkIndex : Nat) :
    (lookupKey (fullMetadata (some m) source chunkIndex) "source"
        = some (.str source)) ∧
    (lookupKey (fullMetadata (some m) source chunkIndex) "chunk_index"
        = some (.nat chunkIndex)) ∧
    (∀ k, k ≠ "source" → k ≠ "chunk_index" →
      lookupKey (fullMetadata (some m) source chunkIndex) k = lookupKey m k) ∧
    (fullMetadata none source chunkIndex
        = [("source", .str source), ("chunk_index", .nat chunkIndex)]) ∧
    (fullMetadata (some []) source chunkIndex
        = [("source", .str source), ("chunk_index", .nat chunkIndex)]) := by
  refine ⟨?_, ?_, ?_, rfl, rfl⟩
  · rw [fullMetadata, lookupKey_setKey_other _ _ _ _ (by decide),
      lookupKey_setKey_self]
  · rw [fullMetadata, lookupKey_setKey_self]
  · intro k h1 h2
    rw [fullMetadata, lookupKey_setKey_other _ _ _ _ h2,
      lookupKey_setKey_other _ _ _ _ h1, Option.getD_some]

/-- Witness for C10 at a concrete input: a caller value under `source` is
overridden while an unrelated key is preserved. -/
theorem c10_metadata_override_witness :
    lookupKey (fullMetadata (some [("source", .str "old"), ("kind", .str "post")])
        "doc.pdf" 4) "kind" = some (.str "post") :=
  (c10_metadata_override [("source", .str "old"), ("kind", .str "post")]
    "doc.pdf" 4).2.2.1 "kind" (by decide) (by decide)

/-- C6 (amended): with a failed embedder initialization every
`create_embedding` call returns a vector of exactly 384 numbers, never raises
(the function is total), and prints the fallback warning; an embedding failure
during a call with a loaded embedder degrades to the same 384-entry fallback.
The degradation is signalled only by the printed warning, not by any marker on
the returned value. -/
theorem c6_degraded_embedding_amended (rand : Nat → Vec) (text : String)
    (hrand : ∀ n, (rand n).length = n) :
    ((create_embedding none rand text).fst.length = 384 ∧
      (create_embedding none rand text).snd = ["Using random embedding fallback"]) ∧
    (∀ f e, f text = .error e →
      (create_embedding (some f) rand text).fst.length = 384) := by
  refine ⟨⟨?_, rfl⟩, ?_⟩
  · simpa [create_embedding] using hrand 384
  · intro f e h
    simpa [create_embedding, h] using hrand 384

/-- Witness for C6 (amended) at a concrete input. -/
theorem c6_degraded_embedding_amended_witness :
    (create_embedding none (fun n => List.replicate n 0) "q").fst.length = 384 :=
  (c6_degraded_embedding_amended (fun n => List.replicate n 0) "q"
    (fun n => List.length_replicate n 0)).1.1

/-- Counterexample to C6 as stated: the value returned in degraded mode is a
plain list carrying no marker, and coincides exactly with the value a loaded
embedder can return, so callers cannot distinguish a fallback from a real
embedding by the returned value. -/
theorem c6_unflagged_counterexample :
    (create_embedding none (fun n => List.replicate n 0) "q").fst
      = (create_embedding (some (fun _ => .ok (List.replicate 384 0)))
          (fun n => List.replicate n 0) "q").fst := rfl

/-- Characterization of `retrieve_brand_context` on an available store, shared
by the retrieval claim theorems: the result is the default list when the
merged accumulator (brand results then platform results) is empty and the
`content` of its first `topK` entries otherwise, and the trace records the
embedding call, the brand search (when `brand_id` is truthy) and the platform
search (when requested and the brand results fall short of `topK`). -/
theorem retrieve_true_eq (embQ : Vec)
    (oracle : Vec → Option String → Nat → ℚ → List SearchRow)
    (brandId : Option String) (query : String) (topK : Nat)
    (includePlatform : Bool) :
    retrieve_brand_context true embQ oracle brandId query topK includePlatform
      = (let brandRes := if truthyId brandId then oracle embQ brandId topK thresholdHalf else []
         let platformRes :=
           if includePlatform && decide (brandRes.length < topK)
           then oracle embQ none (topK - brandRes.length) thresholdHalf else []
         let acc := brandRes ++ platformRes
         ((if acc = [] then default_examples else (acc.take topK).map (·.content)),
          REvent.embed query ::
            ((if truthyId brandId then [REvent.search brandId topK] else []) ++
             (if includePlatform && decide (brandRes.length < topK)
              then [REvent.search none (topK - brandRes.length)] else [])))) := by
  cases hp : includePlatform
      && decide ((if truthyId brandId then oracle embQ brandId topK thresholdHalf else []).length < topK) with
  | true =>
    by_cases hacc : ((if truthyId brandId then oracle embQ brandId topK thresholdHalf else []) ++
        oracle embQ none
          (topK - (if truthyId brandId then oracle embQ brandId topK thresholdHalf else []).length)
          thresholdHalf) = []
    · simp [retrieve_brand_context, hp, hacc]
    · simp [retrieve_brand_context, hp, hacc]
  | false =>
    by_cases hacc : (if truthyId brandId then oracle embQ brandId topK thresholdHalf else []) = []
    · simp [retrieve_brand_context, hp, hacc]
    · simp [retrieve_brand_context, hp, hacc]

/-- C3: with an unavailable store (`db` is `None` or not connected),
`retrieve_brand_context` returns exactly the fixed 3-element default-example
list, in order, untruncated by `topK`, and invokes neither the embedder nor
any similarity search (the event trace is empty). -/
theorem c3_unavailable_defaults (embQ : Vec)
    (oracle : Vec → Option String → Nat → ℚ → List SearchRow)
    (brandId : Option String) (query : String) (topK : Nat)
    (includePlatform : Bool) :
    retrieve_brand_context false embQ oracle brandId query topK includePlatform
      = (default_examples, []) ∧ default_examples.length = 3 := ⟨rfl, rfl⟩

/-- C2: with an available store, if the merged accumulator (brand-scoped
results followed by the platform-scoped results, with no re-ranking across
the two scopes) is non-empty, the result is the `content` field of its first
`topK` entries in accumulator order; if the accumulator is empty, the fixed
default-example list is returned. -/
theorem c2_retrieve_merge_order (embQ : Vec)
    (oracle : Vec → Option String → Nat → ℚ → List SearchRow)
    (brandId : Option String) (query : String) (topK : Nat)
    (includePlatform : Bool) :
    (retrieve_brand_context true embQ oracle brandId query topK includePlatform).fst
      = (let brandRes := if truthyId brandId then oracle embQ brandId topK thresholdHalf else []
         let platformRes :=
           if includePlatform && decide (brandRes.length < topK)
           then oracle embQ none (topK - brandRes.length) thresholdHalf else []
         let acc := brandRes ++ platformRes
         if acc = [] then default_examples else (acc.take topK).map (·.content)) := by
  rw [retrieve_true_eq]

/-- Counterexample to C1 as stated: with an available store, brand id `"b"`,
`topK = 1`, `includePlatform = true`, and both searches returning no rows, the
merged accumulator is empty, so the code returns the 3 default examples — more
than `topK` items, violating the claimed `length ≤ topK` bound. -/
theorem c1_topk_counterexample :
    ((retrieve_brand_context true [] (fun _ _ _ _ => []) (some "b") "q" 1 true).fst).length = 3
    ∧ ¬ ((retrieve_brand_context true [] (fun _ _ _ _ => []) (some "b") "q" 1 true).fst).length ≤ 1 := by
  constructor
  · rfl
  · decide

/-- C1 (amended): with an available store and `includePlatform = true`, the
result has at most `topK` items whenever the merged accumulator is non-empty
(when it is empty the fixed 3-element default list is returned regardless of
`topK`); the platform-scoped (`org_id` null) search is invoked exactly when
the brand-scoped results number fewer than `topK`, with limit `topK` minus the
brand-result count; and if the brand search returns at least `topK` results no
platform search occurs. -/
theorem c1_retrieval_platform_amended (embQ : Vec)
    (oracle : Vec → Option String → Nat → ℚ → List SearchRow)
    (brandId : Option String) (query : String) (topK : Nat)
    (includePlatform : Bool) :
    ((retrieve_brand_context true embQ oracle brandId query topK includePlatform).snd
      = (let brandRes := if truthyId brandId then oracle embQ brandId topK thresholdHalf else []
         REvent.embed query ::
           ((if truthyId brandId then [REvent.search brandId topK] else []) ++
            (if includePlatform && decide (brandRes.length < topK)
             then [REvent.search none (topK - brandRes.length)] else [])))) ∧
    (((if truthyId brandId then oracle embQ brandId topK thresholdHalf else []) ++
        (if includePlatform
            && decide ((if truthyId brandId then oracle embQ brandId topK thresholdHalf else []).length < topK)
         then oracle embQ none
           (topK - (if truthyId brandId then oracle embQ brandId topK thresholdHalf else []).length)
           thresholdHalf
         else [])) ≠ [] →
      ((retrieve_brand_context true embQ oracle brandId query topK includePlatform).fst).length
        ≤ topK) ∧
    (topK ≤ (if truthyId brandId then oracle embQ brandId topK thresholdHalf else []).length →
      ∀ lim, REvent.search none lim
        ∉ (retrieve_brand_context true embQ oracle brandId query topK includePlatform).snd) := by
  refine ⟨?_, ?_, ?_⟩
  · rw [retrieve_true_eq]
  · intro hne
    rw [retrieve_true_eq]
    simp only []
    rw [if_neg hne]
    simp only [List.length_map, List.length_take]
    exact min_le_left _ _
  · intro hk lim
    rw [retrieve_true_eq]
    cases htr : truthyId brandId with
    | false =>
      have hk0 : topK = 0 := by
        simp [htr] at hk
        omega
      simp [htr, hk0]
    | true =>
      cases brandId with
      | none => simp [truthyId] at htr
      | some s =>
        have hnlt : ¬ ((oracle embQ (some s) topK thresholdHalf).length < topK) := by
          simp [htr] at hk
          exact Nat.not_lt.mpr hk
        simp [htr, hnlt]

/-- Witness for C1 (amended) at concrete inputs: one brand row with
`topK = 1` gives a single-element result (hypothesis: accumulator non-empty),
and with `topK ≤` brand-result count no platform search appears in the trace. -/
theorem c1_retrieval_platform_amended_witness :
    ((retrieve_brand_context true [] (fun _ _ _ _ => [⟨"c", some "b"⟩]) (some "b") "q" 1 true).fst).length ≤ 1
    ∧ REvent.search none 0
        ∉ (retrieve_brand_context true [] (fun _ _ _ _ => [⟨"c", some "b"⟩]) (some "b") "q" 1 true).snd :=
  ⟨(c1_retrieval_platform_amended [] (fun _ _ _ _ => [⟨"c", some "b"⟩]) (some "b") "q" 1 true).2.1
      (by decide),
   (c1_retrieval_platform_amended [] (fun _ _ _ _ => [⟨"c", some "b"⟩]) (some "b") "q" 1 true).2.2
      (by decide) 0⟩

/-- `pyStrip` is the left `dropWhile` followed by Mathlib's right-side
`rdropWhile`. -/
theorem pyStrip_eq_rdrop (l : List Char) :
    pyStrip l = List.rdropWhile isPyWs (List.dropWhile isPyWs l) := rfl

/-- A non-nil `dropWhile` result starts with a character failing the
predicate. -/
theorem head_dropWhile_false {l : List Char} {a : Char} {t : List Char}
    (h : List.dropWhile isPyWs l = a :: t) : isPyWs a = false := by
  have hne : List.dropWhile isPyWs l ≠ [] := by simp [h]
  have hh := List.head_dropWhile_not isPyWs l hne
  have ha : (List.dropWhile isPyWs l).head hne = a := by
    simp only [h, List.head_cons]
  rwa [ha] at hh

/-- A stripped list is left-`dropWhile`-invariant. -/
theorem dropWhile_pyStrip (l : List Char) :
    List.dropWhile isPyWs (pyStrip l) = pyStrip l := by
  rcases hr : pyStrip l with _ | ⟨a, t⟩
  · simp
  · have hpref : pyStrip l <+: List.dropWhile isPyWs l := by
      rw [pyStrip_eq_rdrop]
      exact List.rdropWhile_prefix _ _
    rw [hr] at hpref
    obtain ⟨r, hrr⟩ := hpref
    have ha : isPyWs a = false := head_dropWhile_false (l := l) (by rw [← hrr]; rfl)
    simp [List.dropWhile_cons, ha]

/-- A stripped list is right-`rdropWhile`-invariant. -/
theorem rdropWhile_pyStrip (l : List Char) :
    List.rdropWhile isPyWs (pyStrip l) = pyStrip l := by
  rw [pyStrip_eq_rdrop, List.rdropWhile_idempotent]

/-- Stripping is idempotent. -/
theorem pyStrip_idem (l : List Char) : pyStrip (pyStrip l) = pyStrip l := by
  rw [pyStrip_eq_rdrop (l := pyStrip l), dropWhile_pyStrip, rdropWhile_pyStrip]

/-- A list equal to its own strip is invariant under each one-sided drop. -/
theorem pyStrip_eq_self_parts {p : List Char} (h : pyStrip p = p) :
    List.dropWhile isPyWs p = p ∧ List.rdropWhile isPyWs p = p := by
  have hsuf : List.dropWhile isPyWs p <:+ p := List.dropWhile_suffix _
  have hpre : List.rdropWhile isPyWs (List.dropWhile isPyWs p)
      <+: List.dropWhile isPyWs p := List.rdropWhile_prefix _ _
  have hlen : p.length ≤ (List.dropWhile isPyWs p).length := by
    calc p.length = (pyStrip p).length := by rw [h]
    _ ≤ (List.dropWhile isPyWs p).length := by
        rw [pyStrip_eq_rdrop]
        exact hpre.length_le
  have hd : List.dropWhile isPyWs p = p :=
    hsuf.sublist.eq_of_length (Nat.le_antisymm hsuf.sublist.length_le hlen)
  refine ⟨hd, ?_⟩
  have := h
  rw [pyStrip_eq_rdrop, hd] at this
  exact this

/-- The strip of a list is an infix of it. -/
theorem pyStrip_infix_self (l : List Char) : pyStrip l <:+: l := by
  have h1 : pyStrip l <+: List.dropWhile isPyWs l := by
    rw [pyStrip_eq_rdrop]
    exact List.rdropWhile_prefix _ _
  exact h1.isInfix.trans (List.dropWhile_suffix _).isInfix

/-- A nonempty strip-invariant list starts with a non-whitespace character. -/
theorem clean_head {p : List Char} (hne : p ≠ []) (h : pyStrip p = p) :
    ∃ a t, p = a :: t ∧ isPyWs a = false := by
  rcases p with _ | ⟨a, t⟩
  · exact absurd rfl hne
  · refine ⟨a, t, rfl, ?_⟩
    have hd := (pyStrip_eq_self_parts h).1
    by_contra hws
    have hws' : isPyWs a = true := by
      cases hc : isPyWs a
      · exact absurd hc hws
      · rfl
    rw [List.dropWhile_cons, hws'] at hd
    simp only [if_true] at hd
    have : (List.dropWhile isPyWs t).length ≤ t.length :=
      (List.dropWhile_suffix _).sublist.length_le
    rw [hd] at this
    simp at this

/-- A nonempty strip-invariant list does not end with a newline. -/
theorem clean_getLast {p : List Char} (hne : p ≠ []) (h : pyStrip p = p) :
    p.getLast? ≠ some '\n' := by
  have hr := (pyStrip_eq_self_parts h).2
  have hlast := List.rdropWhile_eq_self_iff.mp hr hne
  rw [List.getLast?_eq_getLast p hne]
  intro hc
  have : p.getLast hne = '\n' := by injection hc
  rw [this] at hlast
  simp [isPyWs] at hlast

/-- `splitNN` never returns an empty piece list. -/
theorem splitNN_ne_nil (l : List Char) : splitNN l ≠ [] := by
  induction l using splitNN.induct with
  | case1 => simp [splitNN]
  | case2 c => simp [splitNN]
  | case3 a b t h ih => simp [splitNN, h]
  | case4 a b t h ih =>
    rw [splitNN, if_neg h]
    cases hs : splitNN (b :: t) with
    | nil => simp [consHead]
    | cons x xs => simp [consHead]

/-- The first piece of a split is a prefix of the input. -/
theorem splitNN_first_prefix_self (l : List Char) :
    ∀ h hs, splitNN l = h :: hs → h <+: l := by
  induction l using splitNN.induct with
  | case1 =>
    intro h hs he
    rw [splitNN] at he
    injection he with h1 _
    subst h1
    exact List.nil_prefix
  | case2 c =>
    intro h hs he
    rw [splitNN] at he
    injection he with h1 _
    subst h1
    exact List.prefix_refl _
  | case3 a b t hab ih =>
    intro h hs he
    rw [splitNN, if_pos hab] at he
    injection he with h1 _
    subst h1
    exact List.nil_prefix
  | case4 a b t hab ih =>
    intro h hs he
    rw [splitNN, if_neg hab] at he
    rcases hbt : splitNN (b :: t) with _ | ⟨x, xs⟩
    · exact absurd hbt (splitNN_ne_nil _)
    · rw [hbt, consHead] at he
      injection he with h1 _
      subst h1
      exact List.cons_prefix_cons.mpr ⟨rfl, ih x xs hbt⟩

/-- Every piece of a split is an infix of the input. -/
theorem splitNN_infix_self (l : List Char) : ∀ q ∈ splitNN l, q <:+: l := by
  induction l using splitNN.induct with
  | case1 =>
    intro q hq
    rw [splitNN] at hq
    simp only [List.mem_singleton] at hq
    subst hq
    exact List.nil_infix
  | case2 c =>
    intro q hq
    rw [splitNN] at hq
    simp only [List.mem_singleton] at hq
    subst hq
    exact List.infix_refl _
  | case3 a b t hab ih =>
    intro q hq
    rw [splitNN, if_pos hab] at hq
    rcases List.mem_cons.mp hq with rfl | hq
    · exact List.nil_infix
    · exact List.infix_cons (List.infix_cons (ih q hq))
  | case4 a b t hab ih =>
    intro q hq
    rw [splitNN, if_neg hab] at hq
    rcases hbt : splitNN (b :: t) with _ | ⟨x, xs⟩
    · exact absurd hbt (splitNN_ne_nil _)
    · rw [hbt, consHead] at hq
      rcases List.mem_cons.mp hq with rfl | hq
      · exact (List.cons_prefix_cons.mpr ⟨rfl, splitNN_first_prefix_self _ x xs hbt⟩).isInfix
      · exact List.infix_cons (ih q (by rw [hbt]; exact List.mem_cons_of_mem x hq))

/-- No piece of a split contains the separator `"\n\n"`. -/
theorem splitNN_noNN (l : List Char) : ∀ q ∈ splitNN l, ¬ (sepNN <:+: q) := by
  induction l using splitNN.induct with
  | case1 =>
    intro q hq
    rw [splitNN] at hq
    simp only [List.mem_singleton] at hq
    subst hq
    intro hinf
    have := hinf.length_le
    simp [sepNN] at this
  | case2 c =>
    intro q hq
    rw [splitNN] at hq
    simp only [List.mem_singleton] at hq
    subst hq
    intro hinf
    have := hinf.length_le
    simp [sepNN] at this
  | case3 a b t hab ih =>
    intro q hq
    rw [splitNN, if_pos hab] at hq
    rcases List.mem_cons.mp hq with rfl | hq
    · intro hinf
      have := hinf.length_le
      simp [sepNN] at this
    · exact ih q hq
  | case4 a b t hab ih =>
    intro q hq
    rw [splitNN, if_neg hab] at hq
    rcases hbt : splitNN (b :: t) with _ | ⟨x, xs⟩
    · exact absurd hbt (splitNN_ne_nil _)
    · rw [hbt, consHead] at hq
      rcases List.mem_cons.mp hq with rfl | hq
      · intro hinf
        rcases List.infix_cons_iff.mp hinf with hpre | hinf'
        · rw [sepNN] at hpre
          obtain ⟨ha, hx⟩ := List.cons_prefix_cons.mp hpre
          rcases x with _ | ⟨x0, xt⟩
          · exact absurd (List.prefix_nil.mp hx) (by simp)
          · obtain ⟨hb0, _⟩ := List.cons_prefix_cons.mp hx
            obtain ⟨hxb, _⟩ :=
              List.cons_prefix_cons.mp (splitNN_first_prefix_self _ _ _ hbt)
            exact hab ⟨ha.symm, (hb0.trans hxb).symm⟩
        · exact ih x (by rw [hbt]; exact List.mem_cons_self x xs) hinf'
      · exact ih q (by rw [hbt]; exact List.mem_cons_of_mem x hq)

/-- A separator-free list splits into itself alone. -/
theorem splitNN_of_noNN (l : List Char) (h : ¬ (sepNN <:+: l)) :
    splitNN l = [l] := by
  induction l using splitNN.induct with
  | case1 => rfl
  | case2 c => rfl
  | case3 a b t hab ih =>
    have hpre : sepNN <+: a :: b :: t := ⟨t, by simp [sepNN, hab.1, hab.2]⟩
    exact absurd hpre.isInfix h
  | case4 a b t hab ih =>
    rw [splitNN, if_neg hab, ih (fun hinf => h (List.infix_cons hinf))]
    rfl

/-- Splitting a separator-free piece (not ending in `'\n'`), followed by the
separator and a remainder, yields that piece and then the split of the
remainder. -/
theorem splitNN_append_sep (p : List Char) :
    ∀ r, ¬ (sepNN <:+: p) → p.getLast? ≠ some '\n' →
      splitNN (p ++ sepNN ++ r) = p :: splitNN r := by
  induction p using splitNN.induct with
  | case1 =>
    intro r _ _
    show splitNN ('\n' :: '\n' :: r) = [] :: splitNN r
    rw [splitNN, if_pos ⟨rfl, rfl⟩]
  | case2 c =>
    intro r _ hlast
    have hc : c ≠ '\n' := by
      intro hc
      exact hlast (by rw [hc]; rfl)
    show splitNN (c :: '\n' :: '\n' :: r) = [c] :: splitNN r
    rw [splitNN, if_neg (fun hh => hc hh.1)]
    rw [show ('\n' :: '\n' :: r) = '\n' :: '\n' :: r from rfl, splitNN,
      if_pos ⟨rfl, rfl⟩]
    rfl
  | case3 a b t hab ih =>
    intro r h _
    have hpre : sepNN <+: a :: b :: t := ⟨t, by simp [sepNN, hab.1, hab.2]⟩
    exact absurd hpre.isInfix h
  | case4 a b t hab ih =>
    intro r h hlast
    show splitNN (a :: b :: (t ++ sepNN ++ r)) = (a :: b :: t) :: splitNN r
    rw [splitNN, if_neg hab]
    have hbt : splitNN (b :: (t ++ sepNN ++ r)) = (b :: t) :: splitNN r := by
      have := ih r (fun hinf => h (List.infix_cons hinf))
        (by rw [← List.getLast?_cons_cons (a := a)]; exact hlast)
      simpa using this
    rw [hbt]
    rfl

/-- Unfolding `glue` on a cons with nonempty tail. -/
theorem glue_cons {cs : List (List Char)} (c : List Char) (h : cs ≠ []) :
    glue (c :: cs) = c ++ sepNN ++ glue cs := by
  cases cs with
  | nil => exact absurd rfl h
  | cons x xs => rfl

/-- The glue of a nonempty list of clean paragraphs is nonempty. -/
theorem glue_ne_nil {g : List (List Char)} (hg : AllClean g) (hne : g ≠ []) :
    glue g ≠ [] := by
  cases g with
  | nil => exact absurd rfl hne
  | cons p g' =>
    cases g' with
    | nil => exact (hg p (List.mem_cons_self p [])).1
    | cons x xs =>
      rw [glue_cons p (by simp)]
      simp [List.append_eq_nil, (hg p (List.mem_cons_self p _)).1]

/-- `glue` distributes over append of nonempty lists. -/
theorem glue_append (A B : List (List Char)) (hA : A ≠ []) (hB : B ≠ []) :
    glue (A ++ B) = glue A ++ sepNN ++ glue B := by
  induction A with
  | nil => exact absurd rfl hA
  | cons a A' ih =>
    cases A' with
    | nil =>
      rw [List.cons_append, List.nil_append, glue_cons a hB]
      rfl
    | cons a2 A'' =>
      rw [List.cons_append, glue_cons a (by simp), glue_cons a (by simp),
        ih (by simp)]
      simp [List.append_assoc]

/-- Splitting the glue of a nonempty clean paragraph list recovers it. -/
theorem splitNN_glue {g : List (List Char)} (hg : AllClean g) (hne : g ≠ []) :
    splitNN (glue g) = g := by
  induction g with
  | nil => exact absurd rfl hne
  | cons p g' ih =>
    cases g' with
    | nil => exact splitNN_of_noNN p (hg p (List.mem_cons_self p [])).2.2.1
    | cons x xs =>
      have hp := hg p (List.mem_cons_self p _)
      rw [glue_cons p (by simp),
        splitNN_append_sep p (glue (x :: xs)) hp.2.2.1
          (clean_getLast hp.1 hp.2.1),
        ih (fun q hq => hg q (List.mem_cons_of_mem p hq)) (by simp)]

/-- The glue of a clean paragraph list is left-`dropWhile`-invariant. -/
theorem dropWhile_glue {g : List (List Char)} (hg : AllClean g) :
    List.dropWhile isPyWs (glue g) = glue g := by
  cases g with
  | nil => simp [glue]
  | cons p g' =>
    have hp := hg p (List.mem_cons_self p _)
    cases g' with
    | nil => exact (pyStrip_eq_self_parts hp.2.1).1
    | cons x xs =>
      rw [glue_cons p (by simp), List.append_assoc, List.dropWhile_append]
      have hd : List.dropWhile isPyWs p = p := (pyStrip_eq_self_parts hp.2.1).1
      rw [hd]
      have : p.isEmpty = false := by
        cases hc : p
        · exact absurd hc hp.1
        · rfl
      simp [this, List.append_assoc]

/-- `rdropWhile` over an append whose right part survives. -/
theorem rdropWhile_append_ne {x y : List Char}
    (h : List.rdropWhile isPyWs y ≠ []) :
    List.rdropWhile isPyWs (x ++ y) = x ++ List.rdropWhile isPyWs y := by
  rw [List.rdropWhile, List.reverse_append, List.dropWhile_append]
  have hne : (List.dropWhile isPyWs y.reverse).isEmpty = false := by
    rcases hdw : List.dropWhile isPyWs y.reverse with _ | ⟨c, cs⟩
    · exact absurd (by rw [List.rdropWhile, hdw]; rfl) h
    · rfl
  rw [hne]
  simp [List.rdropWhile]

/-- The glue of a clean paragraph list is right-`rdropWhile`-invariant. -/
theorem rdropWhile_glue {g : List (List Char)} (hg : AllClean g) :
    List.rdropWhile isPyWs (glue g) = glue g := by
  induction g with
  | nil => simp [glue]
  | cons p g' ih =>
    have hp := hg p (List.mem_cons_self p _)
    cases g' with
    | nil => exact (pyStrip_eq_self_parts hp.2.1).2
    | cons x xs =>
      have hg' : AllClean (x :: xs) := fun q hq => hg q (List.mem_cons_of_mem p hq)
      have hih : List.rdropWhile isPyWs (glue (x :: xs)) = glue (x :: xs) :=
        ih hg'
      have hne : List.rdropWhile isPyWs (glue (x :: xs)) ≠ [] := by
        rw [hih]
        exact glue_ne_nil hg' (by simp)
      have hsep : List.rdropWhile isPyWs (sepNN ++ glue (x :: xs))
          = sepNN ++ glue (x :: xs) := by
        rw [rdropWhile_append_ne hne, hih]
      rw [glue_cons p (by simp), List.append_assoc,
        rdropWhile_append_ne (by rw [hsep]; simp [sepNN]), hsep]

/-- Stripping a clean glued buffer (ending in the separator) recovers the
glue itself. -/
theorem stripGlueSep {g : List (List Char)} (hg : AllClean g) (hne : g ≠ []) :
    pyStrip (glue g ++ sepNN) = glue g := by
  rw [pyStrip_eq_rdrop, List.dropWhile_append, dropWhile_glue hg]
  have hemp : (glue g).isEmpty = false := by
    rcases hc : glue g with _ | _
    · exact absurd hc (glue_ne_nil hg hne)
    · rfl
  rw [hemp]
  simp only [Bool.false_eq_true, if_false]
  have hsplit : glue g ++ sepNN = (glue g ++ ['\n']) ++ ['\n'] := by
    simp [sepNN]
  rw [hsplit, List.rdropWhile_concat_pos _ _ _ (by simp [isPyWs]),
    List.rdropWhile_concat_pos _ _ _ (by simp [isPyWs]),
    rdropWhile_glue hg]

theorem cleanParas_cons (p : List Char) (ps : List (List Char)) :
    cleanParas (p :: ps)
      = if pyStrip p = [] then cleanParas ps else pyStrip p :: cleanParas ps := by
  by_cases h : pyStrip p = []
  · simp [cleanParas, h]
  · have hne : (pyStrip p).isEmpty = false := by
      rcases hc : pyStrip p with _ | _
      · exact absurd hc h
      · rfl
    simp [cleanParas, h, hne]

theorem bufOf_append_single (g : List (List Char)) (p : List Char) :
    bufOf (g ++ [p]) = bufOf g ++ (p ++ sepNN) := by
  simp [bufOf]

theorem bufOf_eq_glue {g : List (List Char)} (h : g ≠ []) :
    bufOf g = glue g ++ sepNN := by
  induction g with
  | nil => exact absurd rfl h
  | cons p g' ih =>
    cases g' with
    | nil => simp [bufOf, glue]
    | cons x xs =>
      have h1 : bufOf (p :: x :: xs) = (p ++ sepNN) ++ bufOf (x :: xs) := by
        simp [bufOf]
      rw [h1, ih (by simp), glue_cons p (by simp)]
      simp [List.append_assoc]

/-- Every character of a glue comes from a paragraph or from the separator. -/
theorem mem_glue {g : List (List Char)} {a : Char} (h : a ∈ glue g) :
    (∃ p ∈ g, a ∈ p) ∨ a ∈ sepNN := by
  induction g with
  | nil => simp [glue] at h
  | cons p g' ih =>
    cases g' with
    | nil => exact Or.inl ⟨p, List.mem_cons_self p [], h⟩
    | cons x xs =>
      rw [glue_cons p (by simp)] at h
      rcases List.mem_append.mp h with h1 | h2
      · rcases List.mem_append.mp h1 with hp | hsep
        · exact Or.inl ⟨p, List.mem_cons_self p _, hp⟩
        · exact Or.inr hsep
      · rcases ih h2 with ⟨q, hq, ha⟩ | hsep
        · exact Or.inl ⟨q, List.mem_cons_of_mem p hq, ha⟩
        · exact Or.inr hsep

/-- The flush of a clean glued buffer emits exactly the glue. -/
theorem flushBuf_clean {g : List (List Char)} (hg : AllClean g) (hne : g ≠ []) :
    flushBuf (glue g ++ sepNN) = [glue g] := by
  have hs := stripGlueSep hg hne
  have hgne := glue_ne_nil hg hne
  have hnul : removeNull (glue g) = glue g := by
    rw [removeNull]
    apply List.filter_eq_self.mpr
    intro a ha
    rcases mem_glue ha with ⟨p, hp, hap⟩ | hsep
    · have := (hg p hp).2.2.2
      simp only [bne_iff_ne, ne_eq]
      intro hc
      exact this (hc ▸ hap)
    · simp only [sepNN, List.mem_cons, List.not_mem_nil, or_false] at hsep
      rcases hsep with rfl | rfl <;> simp [nullChar]
  simp [flushBuf, hs, hnul, hgne]

theorem allClean_tail {p : List Char} {ps : List (List Char)}
    (h : AllClean (p :: ps)) : AllClean ps :=
  fun q hq => h q (List.mem_cons_of_mem p hq)

theorem allClean_concat {g : List (List Char)} {p : List Char}
    (hg : AllClean g) (hp : CleanPara p) : AllClean (g ++ [p]) := by
  intro q hq
  rcases List.mem_append.mp hq with h | h
  · exact hg q h
  · rw [List.mem_singleton] at h
    subst h
    exact hp

theorem allClean_single {p : List Char} (hp : CleanPara p) : AllClean [p] := by
  intro q hq
  rw [List.mem_singleton] at hq
  subst hq
  exact hp

/-- The chunk loop ignores raw paragraphs in favour of their cleaned forms. -/
theorem chunkLoop_cleanParas (ps : List (List Char)) :
    ∀ buf, chunkLoop ps buf = chunkLoop (cleanParas ps) buf := by
  induction ps with
  | nil => intro buf; rfl
  | cons p ps ih =>
    intro buf
    simp only [chunkLoop, cleanParas_cons]
    by_cases hq : pyStrip p = []
    · rw [if_pos hq, if_pos hq, ih]
    · rw [if_neg hq, if_neg hq]
      simp only [chunkLoop, pyStrip_idem]
      rw [if_neg hq]
      by_cases hfit : buf.length + (pyStrip p).length < 500
      · rw [if_pos hfit, if_pos hfit, ih]
      · rw [if_neg hfit, if_neg hfit, ih]

/-- On a clean paragraph list and clean nonempty group buffer, the chunk loop
emits at least one chunk. -/
theorem chunkLoop_clean_ne_nil :
    ∀ (ps g : List (List Char)), AllClean ps → AllClean g → g ≠ [] →
      chunkLoop ps (bufOf g) ≠ [] := by
  intro ps
  induction ps with
  | nil =>
    intro g _ hg hne
    show flushBuf (bufOf g) ≠ []
    rw [bufOf_eq_glue hne, flushBuf_clean hg hne]
    simp
  | cons p ps ih =>
    intro g hps hg hne
    have hp := hps p (List.mem_cons_self p _)
    have hq : ¬ (pyStrip p = []) := by
      rw [hp.2.1]
      exact hp.1
    simp only [chunkLoop]
    rw [if_neg hq]
    by_cases hfit : (bufOf g).length + (pyStrip p).length < 500
    · rw [if_pos hfit]
      have harg : bufOf g ++ pyStrip p ++ sepNN = bufOf (g ++ [p]) := by
        rw [hp.2.1, bufOf_append_single]
        simp [List.append_assoc]
      rw [harg]
      exact ih (g ++ [p]) (allClean_tail hps) (allClean_concat hg hp) (by simp)
    · rw [if_neg hfit]
      rw [bufOf_eq_glue hne, flushBuf_clean hg hne]
      simp

/-- The concatenation (with blank lines) of the chunks the loop emits from a
clean paragraph list equals the glue of the group buffer and the remaining
paragraphs: chunking only regroups paragraphs, never loses or alters them. -/
theorem glue_chunkLoop :
    ∀ (ps g : List (List Char)), AllClean ps → AllClean g →
      glue (chunkLoop ps (bufOf g)) = glue (g ++ ps) := by
  intro ps
  induction ps with
  | nil =>
    intro g _ hg
    show glue (flushBuf (bufOf g)) = glue (g ++ [])
    rw [List.append_nil]
    by_cases hne : g = []
    · subst hne
      rfl
    · rw [bufOf_eq_glue hne, flushBuf_clean hg hne]
      rfl
  | cons p ps ih =>
    intro g hps hg
    have hp := hps p (List.mem_cons_self p _)
    have hq : ¬ (pyStrip p = []) := by
      rw [hp.2.1]
      exact hp.1
    simp only [chunkLoop]
    rw [if_neg hq]
    by_cases hfit : (bufOf g).length + (pyStrip p).length < 500
    · rw [if_pos hfit]
      have harg : bufOf g ++ pyStrip p ++ sepNN = bufOf (g ++ [p]) := by
        rw [hp.2.1, bufOf_append_single]
        simp [List.append_assoc]
      rw [harg, ih (g ++ [p]) (allClean_tail hps) (allClean_concat hg hp),
        List.append_assoc]
      rfl
    · rw [if_neg hfit]
      have harg : pyStrip p ++ sepNN = bufOf [p] := by
        rw [hp.2.1]
        simp [bufOf]
      rw [harg]
      by_cases hne : g = []
      · subst hne
        rw [show flushBuf (bufOf ([] : List (List Char))) = [] from rfl,
          List.nil_append,
          ih [p] (allClean_tail hps) (allClean_single hp)]
        rfl
      · rw [bufOf_eq_glue hne, flushBuf_clean hg hne]
        have hC : chunkLoop ps (bufOf [p]) ≠ [] :=
          chunkLoop_clean_ne_nil ps [p] (allClean_tail hps)
            (allClean_single hp) (by simp)
        rw [glue_append [glue g] _ (by simp) hC,
          ih [p] (allClean_tail hps) (allClean_single hp),
          glue_append g (p :: ps) hne (by simp)]
        rfl

/-- On an already-clean paragraph list, cleaning is the identity. -/
theorem cleanParas_of_allClean {P : List (List Char)} (hP : AllClean P) :
    cleanParas P = P := by
  induction P with
  | nil => rfl
  | cons p P' ih =>
    have hp := hP p (List.mem_cons_self p _)
    rw [cleanParas_cons, if_neg (by rw [hp.2.1]; exact hp.1), hp.2.1,
      ih (allClean_tail hP)]

/-- The cleaned paragraphs of a separator-free, null-free paragraph list are
clean. -/
theorem cleanParas_clean {ps : List (List Char)}
    (h : ∀ q ∈ ps, ¬ (sepNN <:+: q) ∧ nullChar ∉ q) :
    AllClean (cleanParas ps) := by
  intro x hx
  rw [cleanParas] at hx
  obtain ⟨hx1, hx2⟩ := List.mem_filter.mp hx
  obtain ⟨q, hq, rfl⟩ := List.mem_map.mp hx1
  have hqprops := h q hq
  refine ⟨?_, pyStrip_idem q, ?_, ?_⟩
  · intro hc
    rw [hc] at hx2
    simp at hx2
  · intro hinf
    exact hqprops.1 (hinf.trans (pyStrip_infix_self q))
  · intro hmem
    exact hqprops.2 ((pyStrip_infix_self q).sublist.mem hmem)

/-- A chunk emitted at a flush site is the whitespace-stripped, null-filtered
buffer, and is nonempty. -/
theorem mem_flushBuf {buf c : List Char} (h : c ∈ flushBuf buf) :
    c = removeNull (pyStrip buf) ∧ c ≠ [] := by
  simp only [flushBuf] at h
  split_ifs at h with h1 h2
  · rw [List.mem_singleton] at h
    exact ⟨h, h ▸ h2⟩
  · exact absurd h (List.not_mem_nil c)
  · exact absurd h (List.not_mem_nil c)

/-- Every flushed chunk is nonempty and free of null bytes. -/
theorem flush_sound {buf c : List Char} (h : c ∈ flushBuf buf) :
    c ≠ [] ∧ nullChar ∉ c := by
  obtain ⟨heq, hne⟩ := mem_flushBuf h
  refine ⟨hne, ?_⟩
  intro hmem
  rw [heq, removeNull] at hmem
  have := (List.mem_filter.mp hmem).2
  simp at this

/-- Every chunk the loop emits is nonempty and free of null bytes. -/
theorem chunkLoop_chunks_sound :
    ∀ (ps : List (List Char)) (buf c : List Char),
      c ∈ chunkLoop ps buf → c ≠ [] ∧ nullChar ∉ c := by
  intro ps
  induction ps with
  | nil => exact fun buf c hc => flush_sound hc
  | cons p ps ih =>
    intro buf c hc
    simp only [chunkLoop] at hc
    split_ifs at hc with h1 h2
    · exact ih buf c hc
    · exact ih _ c hc
    · rcases List.mem_append.mp hc with h | h
      · exact flush_sound h
      · exact ih _ c h

/-- When neither the paragraphs nor the buffer hold null bytes, every emitted
chunk is strip-invariant (its strip is itself). -/
theorem chunkLoop_strip_invariant :
    ∀ (ps : List (List Char)) (buf c : List Char),
      (∀ p ∈ ps, nullChar ∉ p) → nullChar ∉ buf →
      c ∈ chunkLoop ps buf → pyStrip c = c := by
  have hflush : ∀ (buf c : List Char), nullChar ∉ buf → c ∈ flushBuf buf →
      pyStrip c = c := by
    intro buf c hbuf hc
    obtain ⟨heq, _⟩ := mem_flushBuf hc
    have hnul : removeNull (pyStrip buf) = pyStrip buf := by
      rw [removeNull]
      apply List.filter_eq_self.mpr
      intro a ha
      simp only [bne_iff_ne, ne_eq]
      intro hcontra
      exact hbuf ((pyStrip_infix_self buf).sublist.mem (hcontra ▸ ha))
    rw [heq, hnul, pyStrip_idem]
  intro ps
  induction ps with
  | nil => exact fun buf c _ hbuf hc => hflush buf c hbuf hc
  | cons p ps ih =>
    intro buf c hps hbuf hc
    have hps' : ∀ q ∈ ps, nullChar ∉ q :=
      fun q hq => hps q (List.mem_cons_of_mem p hq)
    have hpstrip : nullChar ∉ pyStrip p := by
      intro hm
      exact hps p (List.mem_cons_self p _) ((pyStrip_infix_self p).sublist.mem hm)
    have hsep : nullChar ∉ sepNN := by
      simp [sepNN, nullChar]
    simp only [chunkLoop] at hc
    split_ifs at hc with h1 h2
    · exact ih buf c hps' hbuf hc
    · refine ih _ c hps' ?_ hc
      intro hm
      rcases List.mem_append.mp hm with hm1 | hm2
      · rcases List.mem_append.mp hm1 with hm3 | hm4
        · exact hbuf hm3
        · exact hpstrip hm4
      · exact hsep hm2
    · rcases List.mem_append.mp hc with h | h
      · exact hflush buf c hbuf h
      · refine ih _ c hps' ?_ h
        intro hm
        rcases List.mem_append.mp hm with hm1 | hm2
        · exact hpstrip hm1
        · exact hsep hm2

/-- The source loop and the specification loop agree on every paragraph list
and buffer. -/
theorem chunkLoop_eq_spec (ps : List (List Char)) :
    ∀ buf, chunkLoop ps buf = chunkSpecLoop (cleanParas ps) buf := by
  induction ps with
  | nil =>
    intro buf
    show flushBuf buf = if buf = [] then [] else flushBuf buf
    by_cases h : buf = []
    · rw [if_pos h, h]
      rfl
    · rw [if_neg h]
  | cons p ps ih =>
    intro buf
    simp only [chunkLoop, cleanParas_cons]
    by_cases hq : pyStrip p = []
    · rw [if_pos hq, if_pos hq, ih]
    · rw [if_neg hq, if_neg hq]
      simp only [chunkSpecLoop]
      by_cases hfit : buf.length + (pyStrip p).length < 500
      · rw [if_pos hfit, if_neg (by omega), ih]
      · rw [if_neg hfit, if_pos (by omega), ih]

/-- C4: the chunking step splits on blank-line (`"\n\n"`) boundaries and
greedily accumulates stripped paragraphs, flushing and restarting the buffer
with the triggering paragraph exactly when appending it would make the buffer
length reach or exceed 500, with the size test applied to the pre-append
length, and flushes any non-empty remaining buffer at the end — so a chunk
may exceed 500 characters, witnessed by a 600-character single paragraph. -/
theorem c4_chunking_spec_equiv :
    (∀ l, chunkText l = chunkSpec l) ∧
    (chunkText (List.replicate 600 'a') = [List.replicate 600 'a'] ∧
      500 < (List.replicate 600 'a').length) := by
  refine ⟨fun l => ?_, by decide, by decide⟩
  rw [chunkText, chunkSpec, chunkLoop_eq_spec]

/-- Counterexample to C5 as stated: on the input `"\x00 \x00"` the loop emits
the chunk `" "`, which is empty after stripping whitespace (the code strips
whitespace before removing null bytes, so removing the nulls re-exposes
whitespace); the chunk is emitted, not dropped. -/
theorem c5_whitespace_chunk_counterexample :
    chunkText [nullChar, ' ', nullChar] = [[' ']] ∧ pyStrip [' '] = [] := by
  constructor
  · decide
  · decide

/-- C5 (amended): every chunk the chunking step produces is nonempty and
contains no null byte; and when the input text itself contains no null byte,
every chunk equals its own strip (hence is nonempty after stripping, and
chunks that would strip to empty are dropped).  On inputs containing null
bytes a chunk may strip to empty (see the counterexample). -/
theorem c5_chunks_nonempty_amended (l c : List Char) (hc : c ∈ chunkText l) :
    (c ≠ [] ∧ nullChar ∉ c) ∧ (nullChar ∉ l → pyStrip c = c) := by
  refine ⟨chunkLoop_chunks_sound _ _ c hc, fun hl => ?_⟩
  exact chunkLoop_strip_invariant (splitNN l) [] c
    (fun p hp hm => hl ((splitNN_infix_self l p hp).sublist.mem hm))
    (List.not_mem_nil nullChar) hc

/-- Witness for C5 (amended) at a concrete input. -/
theorem c5_chunks_nonempty_amended_witness :
    (['a'] ≠ [] ∧ nullChar ∉ ['a']) ∧ pyStrip ['a'] = ['a'] :=
  ⟨(c5_chunks_nonempty_amended ['a'] ['a'] (by decide)).1,
   (c5_chunks_nonempty_amended ['a'] ['a'] (by decide)).2 (by decide)⟩

/-- Counterexample to C9 as stated: on a null-containing input the first pass
groups two paragraphs separately (the null bytes inflate the length past the
500 test), while re-chunking the joined output (whose nulls were removed at
flush time) merges them into one chunk — the chunk lists differ in length, so
no whitespace normalization makes them equal. -/
theorem c9_idempotence_counterexample :
    (chunkText ('a' :: '\n' :: '\n' :: 'b' :: List.replicate 496 nullChar)).length = 2 ∧
    (chunkText (glue (chunkText
      ('a' :: '\n' :: '\n' :: 'b' :: List.replicate 496 nullChar)))).length = 1 := by
  constructor
  · decide
  · decide

/-- C9 (amended): on input text containing no null bytes, re-chunking the
blank-line-separated concatenation of the chunking step's own output yields
exactly the same chunks (idempotence on the nose, which implies the claimed
idempotence up to whitespace normalization). -/
theorem c9_chunk_idempotent_amended (l : List Char) (h : nullChar ∉ l) :
    chunkText (glue (chunkText l)) = chunkText l := by
  have hP : AllClean (cleanParas (splitNN l)) :=
    cleanParas_clean (fun q hq =>
      ⟨splitNN_noNN l q hq, fun hm => h ((splitNN_infix_self l q hq).sublist.mem hm)⟩)
  have h1 : chunkText l = chunkLoop (cleanParas (splitNN l)) [] := by
    rw [chunkText, chunkLoop_cleanParas]
  have h2 : glue (chunkText l) = glue (cleanParas (splitNN l)) := by
    rw [h1]
    have h3 := glue_chunkLoop (cleanParas (splitNN l)) []
      hP (fun q hq => absurd hq (List.not_mem_nil q))
    simpa using h3
  by_cases hPn : cleanParas (splitNN l) = []
  · rw [h2, hPn, h1, hPn]
    rfl
  · rw [h2, chunkText, splitNN_glue hP hPn, chunkLoop_cleanParas,
      cleanParas_of_allClean hP, ← h1]

/-- Witness for C9 (amended) at a concrete null-free input. -/
theorem c9_chunk_idempotent_amended_witness :
    chunkText (glue (chunkText ['a', '\n', '\n', 'b'])) = chunkText ['a', '\n', '\n', 'b'] :=
  c9_chunk_idempotent_amended ['a', '\n', '\n', 'b'] (by decide)
